import Mathlib

/-!
Verification development for the low-latency order-flow pipeline:
a bounded lock-free ring buffer of orders (`ring_buffer.hpp`), a
size-and-age windowed batcher (`batcher.hpp`), the fixed-layout order
record (`order.hpp`), and the simulated egress transports
(`tcp_sim.cpp`, `shm_sim.cpp`).  The C++ operations are embedded as
pure Lean functions; atomics are modelled by their sequential
(single-producer single-consumer) semantics, and clock reads are
passed in explicitly as `Nat` timestamps.
-/

namespace LowLatency

/-- Order side, from `OrderType` in `order.hpp`. -/
inductive OrderType
  | BUY
  | SELL
deriving DecidableEq

/-- Order lifecycle status, from `OrderStatus` in `order.hpp`. -/
inductive OrderStatus
  | PENDING
  | FILLED
  | CANCELLED
  | REJECTED
deriving DecidableEq

/-- The NUL character terminating the fixed 16-byte symbol field. -/
def NUL : Char := Char.ofNat 0

/-- The fixed-layout `Order` record of `order.hpp`.  The 16-byte
`char symbol[16]` array is modelled by the list of characters stored
before the terminating NUL (at most 15 of them). -/
structure Order where
  order_id : Nat
  timestamp_ns : Nat
  symbol : List Char
  quantity : Nat
  price_cents : Nat
  type : OrderType
  status : OrderStatus
  reserved : Nat
deriving DecidableEq

/-- The default `Order()` constructor: all id/quantity/price fields 0,
symbol zeroed, side BUY, status PENDING. -/
instance : Inhabited Order :=
  ⟨{ order_id := 0, timestamp_ns := 0, symbol := [], quantity := 0,
     price_cents := 0, type := OrderType.BUY, status := OrderStatus.PENDING,
     reserved := 0 }⟩

/-- The price conversion of the parameterised `Order` constructor:
`price_cents = static_cast<uint32_t>(price * 100.0 + 0.5)`, i.e. the
floor of `price * 100 + 1/2` (the cast truncates toward zero and the
argument is non-negative for non-negative prices). -/
def price_to_cents (price : ℚ) : Nat := (⌊price * 100 + 1 / 2⌋).toNat

/-- The parameterised `Order` constructor of `order.hpp`: stores the id
and quantity, truncates the symbol to 15 characters (`strncpy` with a
forced terminating NUL), converts the price to cents rounded half-up,
sets status PENDING and `reserved = 0`.  The clock read for
`timestamp_ns` is passed in as `ts`. -/
def mkOrder (id : Nat) (sym : List Char) (t : OrderType) (price : ℚ)
    (qty : Nat) (ts : Nat) : Order :=
  { order_id := id, timestamp_ns := ts, symbol := sym.take 15,
    quantity := qty, price_cents := price_to_cents price, type := t,
    status := OrderStatus.PENDING, reserved := 0 }

/-- Source `Order::is_valid`: `order_id != 0 && quantity > 0 && price_cents > 0
&& symbol[0] != '\0' && reserved == 0`. -/
def Order.is_valid (o : Order) : Bool :=
  o.order_id ≠ 0 && o.quantity > 0 && o.price_cents > 0 &&
    o.symbol.headD NUL ≠ NUL && o.reserved == 0

/-- Source `Order::get_price`: `price_cents / 100.0` as an exact rational. -/
def Order.get_price (o : Order) : ℚ := (o.price_cents : ℚ) / 100

/-- A concrete valid order, used in concrete runs. -/
def sampleOrder (i : Nat) : Order :=
  { order_id := i, timestamp_ns := 0, symbol := ['A'], quantity := 1,
    price_cents := 100, type := OrderType.BUY, status := OrderStatus.PENDING,
    reserved := 0 }

/-! ## Ring buffer (`ring_buffer.hpp`) -/

/-- State of `LockFreeRingBuffer<Order>`: the slot array, the fixed
capacity, the producer index `head` and the consumer index `tail`. -/
structure LockFreeRingBuffer where
  capacity : Nat
  buffer : List Order
  head : Nat
  tail : Nat
deriving DecidableEq

/-- The constructor's power-of-two assertion:
`(capacity & (capacity - 1)) == 0`. -/
def capacityCheck (capacity : Nat) : Bool := capacity &&& (capacity - 1) == 0

/-- A freshly constructed ring: `head_ = 0`, `tail_ = 0`, a zeroed slot
array of `capacity` default orders. -/
def mkRing (capacity : Nat) : LockFreeRingBuffer :=
  { capacity := capacity, buffer := List.replicate capacity default,
    head := 0, tail := 0 }

/-- Source `LockFreeRingBuffer::try_push`: compute
`next_head = (head + 1) & (capacity - 1)`; if `next_head == tail` the
ring is full and the push fails; otherwise write the item at `head` and
advance `head` to `next_head`. -/
def try_push (r : LockFreeRingBuffer) (item : Order) :
    Bool × LockFreeRingBuffer :=
  let next_head := (r.head + 1) &&& (r.capacity - 1)
  if next_head == r.tail then (false, r)
  else (true, { r with buffer := r.buffer.set r.head item, head := next_head })

/-- Source `LockFreeRingBuffer::try_pop`: if `tail == head` the ring is empty
and the pop fails; otherwise read the slot at `tail` and advance `tail`
to `(tail + 1) & (capacity - 1)`. -/
def try_pop (r : LockFreeRingBuffer) : Option Order × LockFreeRingBuffer :=
  if r.tail == r.head then (none, r)
  else (some (r.buffer.getD r.tail default),
        { r with tail := (r.tail + 1) &&& (r.capacity - 1) })

/-- Sequential composition of `try_push` over a list of items, returning
the list of success flags and the final ring state. -/
def pushList (r : LockFreeRingBuffer) :
    List Order → List Bool × LockFreeRingBuffer
  | [] => ([], r)
  | x :: xs =>
      let p := try_push r x
      let q := pushList p.2 xs
      (p.1 :: q.1, q.2)

/-- Sequential composition of `n` calls to `try_pop`, returning the list
of popped results and the final ring state. -/
def popN (r : LockFreeRingBuffer) : Nat → List (Option Order) × LockFreeRingBuffer
  | 0 => ([], r)
  | n + 1 =>
      let p := try_pop r
      let q := popN p.2 n
      (p.1 :: q.1, q.2)

/-- Well-formedness of a ring state of capacity `2 ^ k`: both indices
in range and the slot array of full length. -/
def ringWF (r : LockFreeRingBuffer) (k : Nat) : Prop :=
  r.capacity = 2 ^ k ∧ r.head < r.capacity ∧ r.tail < r.capacity ∧
    r.buffer.length = r.capacity

/-- Number of un-popped orders: `(head - tail) mod capacity`, computed
without underflow. -/
def ringSize (r : LockFreeRingBuffer) : Nat :=
  (r.head + r.capacity - r.tail) % r.capacity

/-- Abstraction function: the queue of un-popped orders, oldest first,
read from the slot array starting at `tail`. -/
def contents (r : LockFreeRingBuffer) : List Order :=
  (List.range (ringSize r)).map
    (fun i => r.buffer.getD ((r.tail + i) % r.capacity) default)

/-! ## Ring buffer arithmetic -/

/-- The bitmask wraparound of the source, `x & (2 ^ k - 1)`, is mod. -/
theorem mask_eq_mod (x k : Nat) : x &&& (2 ^ k - 1) = x % 2 ^ k :=
  Nat.and_pow_two_sub_one_eq_mod x k

/-- Reduction of `a % C` when `a < 2 * C`. -/
theorem two_cycle_mod {a C : Nat} (_hC : 0 < C) (h : a < 2 * C) :
    a % C = if a < C then a else a - C := by
  split
  · exact Nat.mod_eq_of_lt (by assumption)
  · next hge =>
      rw [Nat.mod_eq_sub_mod (Nat.le_of_not_lt hge)]
      exact Nat.mod_eq_of_lt (by omega)

theorem ringWF.cap_pos {r : LockFreeRingBuffer} {k : Nat} (hw : ringWF r k) :
    0 < r.capacity := by
  rw [hw.1]; exact Nat.pos_pow_of_pos k (by omega)

theorem ringSize_lt {r : LockFreeRingBuffer} {k : Nat} (hw : ringWF r k) :
    ringSize r < r.capacity :=
  Nat.mod_lt _ hw.cap_pos

/-- The slot just past the stored orders is `head`. -/
theorem tail_add_size_mod {r : LockFreeRingBuffer} {k : Nat} (hw : ringWF r k) :
    (r.tail + ringSize r) % r.capacity = r.head := by
  obtain ⟨hc, hh, ht, hb⟩ := hw
  unfold ringSize
  rw [Nat.add_mod_mod]
  have he : r.tail + (r.head + r.capacity - r.tail) = r.head + r.capacity := by omega
  rw [he, Nat.add_mod_right]
  exact Nat.mod_eq_of_lt hh

/-- Fullness test of `try_push` expressed through `ringSize`. -/
theorem full_iff {r : LockFreeRingBuffer} {k : Nat} (hw : ringWF r k) :
    ((r.head + 1) % r.capacity = r.tail) ↔ ringSize r = r.capacity - 1 := by
  have hC := hw.cap_pos
  obtain ⟨hc, hh, ht, hb⟩ := hw
  unfold ringSize
  rw [two_cycle_mod hC (by omega), two_cycle_mod hC (by omega)]
  split <;> split <;> omega

/-- Emptiness test of `try_pop` expressed through `ringSize`. -/
theorem size_zero_iff {r : LockFreeRingBuffer} {k : Nat} (hw : ringWF r k) :
    ringSize r = 0 ↔ r.tail = r.head := by
  have hC := hw.cap_pos
  obtain ⟨hc, hh, ht, hb⟩ := hw
  unfold ringSize
  rw [two_cycle_mod hC (by omega)]
  split <;> omega

theorem contents_length (r : LockFreeRingBuffer) :
    (contents r).length = ringSize r := by
  simp [contents]

/-- Rewriting `try_push` with the mask already reduced to mod arithmetic. -/
theorem try_push_eq {r : LockFreeRingBuffer} {k : Nat} (hw : ringWF r k) (x : Order) :
    try_push r x =
      if (r.head + 1) % r.capacity = r.tail then (false, r)
      else (true, { r with buffer := r.buffer.set r.head x,
                           head := (r.head + 1) % r.capacity }) := by
  unfold try_push
  rw [hw.1, mask_eq_mod, ← hw.1]
  by_cases hc : (r.head + 1) % r.capacity = r.tail
  · simp [hc]
  · simp [hc]

/-- Rewriting `try_pop` with the mask already reduced to mod arithmetic. -/
theorem try_pop_eq {r : LockFreeRingBuffer} {k : Nat} (hw : ringWF r k) :
    try_pop r =
      if r.tail = r.head then (none, r)
      else (some (r.buffer.getD r.tail default),
            { r with tail := (r.tail + 1) % r.capacity }) := by
  unfold try_pop
  rw [hw.1, mask_eq_mod, ← hw.1]
  by_cases hc : r.tail = r.head
  · simp [hc]
  · simp [hc]

/-- Distinct offsets below `ringSize` land on distinct slots; in
particular no stored slot coincides with `head`. -/
theorem offset_ne_head {r : LockFreeRingBuffer} {k : Nat} (hw : ringWF r k)
    {i : Nat} (hi : i < ringSize r) : (r.tail + i) % r.capacity ≠ r.head := by
  intro heq
  have h1 : (r.tail + i) % r.capacity = (r.tail + ringSize r) % r.capacity := by
    rw [heq, tail_add_size_mod hw]
  have h2 : i % r.capacity = ringSize r % r.capacity :=
    Nat.ModEq.add_left_cancel (Nat.ModEq.refl r.tail) h1
  have hs := ringSize_lt hw
  rw [Nat.mod_eq_of_lt (by omega), Nat.mod_eq_of_lt hs] at h2
  omega

/-- A successful `try_push` appends the pushed order to the abstract
queue, preserves well-formedness, and the resulting size grows by one. -/
theorem push_spec {r : LockFreeRingBuffer} {k : Nat} (hw : ringWF r k) (x : Order)
    (hnf : ringSize r ≠ r.capacity - 1) :
    (try_push r x).1 = true ∧
    ringWF (try_push r x).2 k ∧
    contents (try_push r x).2 = contents r ++ [x] := by
  have hC := hw.cap_pos
  have hfull := (full_iff hw).not
  have hcond : (r.head + 1) % r.capacity ≠ r.tail := by
    intro hc; exact hnf ((full_iff hw).mp hc)
  rw [try_push_eq hw]
  rw [if_neg hcond]
  obtain ⟨hc, hh, ht, hb⟩ := hw
  have hs := ringSize_lt ⟨hc, hh, ht, hb⟩
  refine ⟨rfl, ⟨hc, Nat.mod_lt _ hC, ht, by simpa using hb⟩, ?_⟩
  -- the new size is the old size plus one
  have hsz : ringSize { r with buffer := r.buffer.set r.head x,
                               head := (r.head + 1) % r.capacity } = ringSize r + 1 := by
    show ((r.head + 1) % r.capacity + r.capacity - r.tail) % r.capacity = ringSize r + 1
    have h1 : (r.head + 1) % r.capacity + r.capacity - r.tail
        = (r.head + 1) % r.capacity + (r.capacity - r.tail) := by omega
    rw [h1, Nat.mod_add_mod]
    have hbound : r.head + 1 + (r.capacity - r.tail) < 2 * r.capacity := by
      rcases Nat.lt_or_ge (r.head + 1) r.capacity with h2 | h2
      · omega
      · have h3 : r.head + 1 = r.capacity := by omega
        have h4 : r.tail ≠ 0 := by
          intro h0
          apply hcond
          rw [h3, h0, Nat.mod_self]
        omega
    unfold ringSize at hnf ⊢
    rw [two_cycle_mod hC (by omega)] at hnf
    rw [two_cycle_mod hC hbound, two_cycle_mod hC (by omega)]
    split at hnf <;> split <;> omega
  unfold contents
  rw [hsz, List.range_succ, List.map_append]
  congr 1
  · apply List.map_congr_left
    intro i hi
    rw [List.mem_range] at hi
    show (r.buffer.set r.head x).getD ((r.tail + i) % r.capacity) default
        = r.buffer.getD ((r.tail + i) % r.capacity) default
    rw [List.getD_eq_getElem?_getD, List.getD_eq_getElem?_getD,
        List.getElem?_set_ne (fun h => offset_ne_head ⟨hc, hh, ht, hb⟩ hi h.symm)]
  · show [(r.buffer.set r.head x).getD ((r.tail + ringSize r) % r.capacity) default] = [x]
    rw [tail_add_size_mod ⟨hc, hh, ht, hb⟩]
    rw [List.getD_eq_getElem?_getD, List.getElem?_set_self (by omega)]
    rfl

/-- A full `try_push` fails and leaves the ring unchanged. -/
theorem push_full {r : LockFreeRingBuffer} {k : Nat} (hw : ringWF r k) (x : Order)
    (hf : ringSize r = r.capacity - 1) : try_push r x = (false, r) := by
  rw [try_push_eq hw, if_pos ((full_iff hw).mpr hf)]

/-- Operation `try_pop` pops the head of the abstract queue (or fails on the
empty queue), preserving well-formedness. -/
theorem pop_spec {r : LockFreeRingBuffer} {k : Nat} (hw : ringWF r k) :
    (try_pop r).1 = (contents r).head? ∧
    ringWF (try_pop r).2 k ∧
    contents (try_pop r).2 = (contents r).tail := by
  have hC := hw.cap_pos
  rw [try_pop_eq hw]
  by_cases he : r.tail = r.head
  · have hz : ringSize r = 0 := (size_zero_iff hw).mpr he
    have hc0 : contents r = [] := by
      have := contents_length r
      rw [hz] at this
      exact List.eq_nil_of_length_eq_zero this
    rw [if_pos he, hc0]
    exact ⟨rfl, hw, rfl⟩
  · rw [if_neg he]
    obtain ⟨hc, hh, ht, hb⟩ := hw
    have hnz : ringSize r ≠ 0 := fun h => he ((size_zero_iff ⟨hc, hh, ht, hb⟩).mp h)
    have hs := ringSize_lt (k := k) ⟨hc, hh, ht, hb⟩
    obtain ⟨m, hm⟩ : ∃ m, ringSize r = m + 1 := ⟨ringSize r - 1, by omega⟩
    -- the new size is the old size minus one
    have hsz : ringSize { r with tail := (r.tail + 1) % r.capacity } = m := by
      show (r.head + r.capacity - (r.tail + 1) % r.capacity) % r.capacity = m
      unfold ringSize at hm hs
      rw [two_cycle_mod hC (by omega)] at hm hs
      rw [two_cycle_mod hC (by omega), two_cycle_mod hC (by omega)]
      split at hm <;> split <;> split <;> omega
    have hexp : contents r = r.buffer.getD r.tail default ::
        (List.range m).map
          (fun i => r.buffer.getD ((r.tail + (i + 1)) % r.capacity) default) := by
      unfold contents
      rw [hm, List.range_succ_eq_map, List.map_cons, List.map_map]
      congr 1
      rw [Nat.add_zero, Nat.mod_eq_of_lt ht]
    refine ⟨by rw [hexp]; rfl, ⟨hc, hh, Nat.mod_lt _ hC, hb⟩, ?_⟩
    rw [hexp]
    show contents { r with tail := (r.tail + 1) % r.capacity } = _
    unfold contents
    rw [hsz]
    apply List.map_congr_left
    intro i _
    show r.buffer.getD (((r.tail + 1) % r.capacity + i) % r.capacity) default = _
    rw [Nat.mod_add_mod]
    congr 2
    omega

/-- A sequence of all-successful pushes appends its items to the
abstract queue. -/
theorem pushList_spec {k : Nat} :
    ∀ (xs : List Order) (r : LockFreeRingBuffer), ringWF r k →
      (pushList r xs).1.all (fun b => b) = true →
      ringWF (pushList r xs).2 k ∧
      contents (pushList r xs).2 = contents r ++ xs := by
  intro xs
  induction xs with
  | nil => intro r hw _; exact ⟨hw, by simp [pushList]⟩
  | cons x rest ih =>
      intro r hw hall
      have hall1 : (try_push r x).1 = true ∧
          (pushList (try_push r x).2 rest).1.all (fun b => b) = true := by
        simpa [pushList, List.all_cons] using hall
      have hnf : ringSize r ≠ r.capacity - 1 := by
        intro hfull
        rw [push_full hw x hfull] at hall1
        exact absurd hall1.1 (by simp)
      obtain ⟨-, hw2, hc2⟩ := push_spec hw x hnf
      obtain ⟨hw3, hc3⟩ := ih (try_push r x).2 hw2 hall1.2
      refine ⟨by simpa [pushList] using hw3, ?_⟩
      show contents (pushList (try_push r x).2 rest).2 = _
      rw [hc3, hc2]
      simp

/-- Popping `n ≤ size` times yields the first `n` queued orders and
drops them from the abstract queue. -/
theorem popN_spec {k : Nat} :
    ∀ (n : Nat) (r : LockFreeRingBuffer), ringWF r k →
      n ≤ (contents r).length →
      (popN r n).1 = ((contents r).take n).map some ∧
      ringWF (popN r n).2 k ∧
      contents (popN r n).2 = (contents r).drop n := by
  intro n
  induction n with
  | zero => intro r hw _; exact ⟨by simp [popN], hw, by simp [popN]⟩
  | succ m ih =>
      intro r hw hn
      obtain ⟨hp1, hw2, hc2⟩ := pop_spec hw
      have hne : contents r ≠ [] := by
        intro h0; rw [h0] at hn; simp at hn
      obtain ⟨a, l, hal⟩ := List.exists_cons_of_ne_nil hne
      have hn2 : m ≤ (contents (try_pop r).2).length := by
        rw [hc2, hal]; rw [hal] at hn; simpa using hn
      obtain ⟨ih1, ih2, ih3⟩ := ih (try_pop r).2 hw2 hn2
      refine ⟨?_, by simpa [popN] using ih2, ?_⟩
      · show (try_pop r).1 :: (popN (try_pop r).2 m).1 = _
        rw [ih1, hp1, hc2, hal]
        simp
      · show contents (popN (try_pop r).2 m).2 = _
        rw [ih3, hc2, hal]
        simp

theorem mkRing_WF (k : Nat) : ringWF (mkRing (2 ^ k)) k := by
  refine ⟨rfl, ?_, ?_, by simp [mkRing]⟩ <;>
    exact Nat.pos_pow_of_pos k (by omega)

theorem contents_mkRing (c : Nat) : contents (mkRing c) = [] := by
  unfold contents ringSize mkRing
  simp

/-- C1 — Ring FIFO: in the sequential (SPSC) semantics, if a sequence
of `try_push` calls starting from a freshly constructed power-of-two
ring all succeed, then popping the same number of times succeeds
throughout and returns exactly the pushed orders, oldest first. -/
theorem ring_fifo (k : Nat) (xs : List Order)
    (hsucc : (pushList (mkRing (2 ^ k)) xs).1.all (fun b => b) = true) :
    (popN (pushList (mkRing (2 ^ k)) xs).2 xs.length).1 = xs.map some := by
  obtain ⟨hw2, hc2⟩ := pushList_spec xs (mkRing (2 ^ k)) (mkRing_WF k) hsucc
  rw [contents_mkRing] at hc2
  simp only [List.nil_append] at hc2
  obtain ⟨hp1, -, -⟩ := popN_spec xs.length _ hw2 (by rw [hc2])
  rw [hp1, hc2, List.take_length]

/-- C1 witness: a concrete run on a ring of capacity 4. -/
theorem ring_fifo_witness :
    (pushList (mkRing (2 ^ 2)) [sampleOrder 1, sampleOrder 2, sampleOrder 3]).1.all
        (fun b => b) = true ∧
    (popN (pushList (mkRing (2 ^ 2)) [sampleOrder 1, sampleOrder 2, sampleOrder 3]).2
        [sampleOrder 1, sampleOrder 2, sampleOrder 3].length).1
      = [sampleOrder 1, sampleOrder 2, sampleOrder 3].map some :=
  ⟨by decide, ring_fifo 2 [sampleOrder 1, sampleOrder 2, sampleOrder 3] (by decide)⟩

/-- On a ring holding `ringSize r` orders, pushing `2 ^ k - ringSize r`
further orders succeeds until the ring is full and then fails once. -/
theorem pushList_results {k : Nat} :
    ∀ (xs : List Order) (r : LockFreeRingBuffer), ringWF r k →
      xs.length + ringSize r = 2 ^ k →
      (pushList r xs).1
        = List.replicate (2 ^ k - 1 - ringSize r) true ++ [false] := by
  intro xs
  induction xs with
  | nil =>
      intro r hw hlen
      have := ringSize_lt hw
      rw [hw.1] at this
      simp at hlen
      omega
  | cons x rest ih =>
      intro r hw hlen
      have hslt := ringSize_lt hw
      rw [hw.1] at hslt
      by_cases hfull : ringSize r = r.capacity - 1
      · have hrest : rest = [] := by
          rw [hw.1] at hfull
          have : rest.length = 0 := by simp at hlen; omega
          exact List.eq_nil_of_length_eq_zero this
        rw [hrest]
        show ((try_push r x).1 :: (pushList (try_push r x).2 []).1, _).1 = _
        rw [push_full hw x hfull, hw.1] at *
        simp [pushList]
        omega
      · obtain ⟨hp1, hw2, hc2⟩ := push_spec hw x hfull
        have hsz2 : ringSize (try_push r x).2 = ringSize r + 1 := by
          have h1 := contents_length (try_push r x).2
          have h2 := contents_length r
          rw [hc2] at h1
          simp at h1
          omega
        have hlen2 : rest.length + ringSize (try_push r x).2 = 2 ^ k := by
          rw [hsz2]; simp at hlen; omega
        have := ih (try_push r x).2 hw2 hlen2
        show ((try_push r x).1 :: (pushList (try_push r x).2 rest).1, _).1 = _
        rw [hw.1] at hfull
        have hrep : 2 ^ k - 1 - ringSize r = (2 ^ k - 1 - ringSize (try_push r x).2) + 1 := by
          rw [hsz2]; omega
        simp only [this, hp1, hrep, List.replicate_succ]
        simp

/-- C2 — Ring capacity: starting from a freshly constructed ring of
capacity `C = 2 ^ k`, a run of `C` consecutive `try_push` calls returns
`C − 1` successes followed by one failure: exactly `C − 1` pushes fit. -/
theorem ring_capacity (k : Nat) (xs : List Order) (hlen : xs.length = 2 ^ k) :
    (pushList (mkRing (2 ^ k)) xs).1
      = List.replicate (2 ^ k - 1) true ++ [false] := by
  have hz : ringSize (mkRing (2 ^ k)) = 0 := by
    have := contents_length (mkRing (2 ^ k))
    rw [contents_mkRing] at this
    simpa using this.symm
  have := pushList_results xs (mkRing (2 ^ k)) (mkRing_WF k) (by omega)
  rw [this, hz]
  simp

/-- C2 witness: with capacity `C = 2`, the first push succeeds and the
second fails. -/
theorem ring_capacity_witness :
    ([sampleOrder 1, sampleOrder 2] : List Order).length = 2 ^ 1 ∧
    (pushList (mkRing (2 ^ 1)) [sampleOrder 1, sampleOrder 2]).1
      = List.replicate (2 ^ 1 - 1) true ++ [false] :=
  ⟨by decide, ring_capacity 1 [sampleOrder 1, sampleOrder 2] (by decide)⟩

/-! ## The power-of-two capacity check -/

theorem eq_zero_iff_testBit (x : Nat) :
    x = 0 ↔ ∀ i, x.testBit i = false := by
  constructor
  · rintro rfl i; exact Nat.zero_testBit i
  · intro h; exact Nat.eq_of_testBit_eq (fun i => by rw [h i, Nat.zero_testBit])

/-- Halving step of the check for even operands. -/
theorem land_pred_even (m : Nat) (hm : 1 ≤ m) :
    ((2 * m) &&& (2 * m - 1) = 0) ↔ (m &&& (m - 1) = 0) := by
  rw [eq_zero_iff_testBit, eq_zero_iff_testBit]
  have e1 : 2 * m / 2 = m := by omega
  have e2 : (2 * m - 1) / 2 = m - 1 := by omega
  constructor
  · intro h i
    have h2 := h (i + 1)
    rw [Nat.testBit_land, Nat.testBit_succ, Nat.testBit_succ, e1, e2] at h2
    rwa [Nat.testBit_land]
  · intro h i
    cases i with
    | zero =>
        rw [Nat.testBit_land, Nat.testBit_zero]
        have : 2 * m % 2 = 0 := Nat.mul_mod_right 2 m
        simp [this]
    | succ i =>
        rw [Nat.testBit_land, Nat.testBit_succ, Nat.testBit_succ, e1, e2]
        have h2 := h i
        rwa [Nat.testBit_land] at h2

/-- An odd number above 1 fails the check: it shares a high bit with
its predecessor. -/
theorem land_pred_odd (m : Nat) (hm : 1 ≤ m) :
    (2 * m + 1) &&& (2 * m + 1 - 1) ≠ 0 := by
  intro h
  rw [eq_zero_iff_testBit] at h
  obtain ⟨i, hi⟩ := Nat.ne_zero_implies_bit_true (x := m) (by omega)
  have h2 := h (i + 1)
  rw [Nat.testBit_land, Nat.testBit_succ, Nat.testBit_succ] at h2
  have e1 : (2 * m + 1) / 2 = m := by omega
  have e2 : (2 * m + 1 - 1) / 2 = m := by omega
  rw [e1, e2, hi] at h2
  simp at h2

/-- The test `c & (c − 1) = 0` holds exactly for 0 and the powers of two. -/
theorem land_pred_eq_zero_iff (c : Nat) :
    (c &&& (c - 1) = 0) ↔ (c = 0 ∨ ∃ j, c = 2 ^ j) := by
  induction c using Nat.strong_induction_on with
  | _ c ih =>
    match c, ih with
    | 0, _ => simp
    | 1, _ =>
        constructor
        · intro _; exact Or.inr ⟨0, rfl⟩
        · intro _; decide
    | (n + 2), ih =>
        rcases Nat.even_or_odd (n + 2) with ⟨m, hm⟩ | ⟨m, hm⟩
        · have hm1 : 1 ≤ m := by omega
          have h2 : n + 2 = 2 * m := by omega
          have hlt : m < n + 2 := by omega
          rw [h2, land_pred_even m hm1]
          rw [ih m hlt]
          constructor
          · rintro (h0 | ⟨j, hj⟩)
            · omega
            · exact Or.inr ⟨j + 1, by rw [pow_succ, ← hj]; omega⟩
          · rintro (h0 | ⟨j, hj⟩)
            · omega
            · right
              have hj1 : 1 ≤ j := by
                rcases Nat.eq_zero_or_pos j with h | h
                · rw [h] at hj; omega
                · exact h
              refine ⟨j - 1, ?_⟩
              have hpow : 2 ^ j = 2 * 2 ^ (j - 1) := by
                conv_lhs => rw [show j = (j - 1) + 1 by omega]
                rw [pow_succ]; ring
              omega
        · have hm1 : 1 ≤ m := by omega
          have h2 : n + 2 = 2 * m + 1 := by omega
          constructor
          · intro h
            rw [h2] at h
            exact absurd h (land_pred_odd m hm1)
          · rintro (h0 | ⟨j, hj⟩)
            · omega
            · exfalso
              cases j with
              | zero => simp at hj
              | succ j =>
                  have : 2 ^ (j + 1) = 2 * 2 ^ j := by rw [pow_succ]; ring
                  omega

/-- The constructor's assertion accepts exactly 0 and the powers of
two (including 1). -/
theorem capacityCheck_iff (c : Nat) :
    capacityCheck c = true ↔ (c = 0 ∨ ∃ j, c = 2 ^ j) := by
  rw [capacityCheck, beq_iff_eq]
  exact land_pred_eq_zero_iff c

/-- C3 counterexample: the constructor's check passes for capacity 0
(not a power of two) and for capacity 1 (a power of two below 2), so
construction succeeds for non-power-of-two and for sub-2 capacities,
contrary to the claim. -/
theorem capacity_check_counterexample :
    capacityCheck 0 = true ∧ capacityCheck 1 = true := by decide

/-- C3 (amended) — the ring constructor's assertion
`(capacity & (capacity - 1)) == 0` accepts a capacity exactly when it
is 0 or a power of two (including 1); only capacities that are neither
0 nor a power of two are rejected.  No separate `--buffer-size`
validation exists in `main`. -/
theorem capacity_check_characterization (c : Nat) :
    capacityCheck c = true ↔ (c = 0 ∨ ∃ j, c = 2 ^ j) :=
  capacityCheck_iff c

theorem try_push_cap_one (r : LockFreeRingBuffer) (hcap : r.capacity = 1)
    (ht : r.tail = 0) (x : Order) : try_push r x = (false, r) := by
  unfold try_push
  rw [hcap, ht]
  simp

/-- C10 — the power-of-two check accepts capacities 1 and 0, and a
ring constructed with capacity 1 rejects every push: each `try_push`
returns false and leaves the ring unchanged, so such a ring never
holds any order. -/
theorem ring_capacity_one (x : Order) (xs : List Order) :
    capacityCheck 1 = true ∧ capacityCheck 0 = true ∧
    try_push (mkRing 1) x = (false, mkRing 1) ∧
    (pushList (mkRing 1) xs).1 = List.replicate xs.length false := by
  refine ⟨by decide, by decide, try_push_cap_one _ rfl rfl x, ?_⟩
  induction xs with
  | nil => rfl
  | cons y ys ih =>
      show ((try_push (mkRing 1) y).1 :: (pushList (try_push (mkRing 1) y).2 ys).1, _).1 = _
      rw [try_push_cap_one _ rfl rfl y]
      simp only [List.length_cons, List.replicate_succ]
      exact congrArg (List.cons false) ih

/-! ## Batcher (`batcher.hpp`) -/

/-- State of `Batcher`.  `sent` is the log of `send_callback_`
invocations: each entry records the batch handed downstream together
with the latency argument in microseconds.  Clock reads are passed to
the operations as explicit `Nat` timestamps. -/
structure Batcher where
  batch_buffer : List Order
  batch_size_threshold : Nat
  timeout : Nat
  first_order_time : Nat
  has_orders : Bool
  sent : List (List Order × Nat)
deriving DecidableEq

/-- Source `Batcher::flush_batch`: a no-op on an empty buffer; otherwise hand
the buffer and the elapsed latency to the callback, clear the buffer
and drop the `has_orders_` flag. -/
def flush_batch (b : Batcher) (now : Nat) : Batcher :=
  if b.batch_buffer.isEmpty then b
  else { b with
         sent := b.sent ++ [(b.batch_buffer, now - b.first_order_time)],
         batch_buffer := [], has_orders := false }

/-- Source `Batcher::add_order`: on the first order of a window record
`first_order_time_ = now`; append the order; flush when the buffer has
reached `batch_size_threshold_`. -/
def add_order (b : Batcher) (o : Order) (now : Nat) : Batcher :=
  let b1 := if b.has_orders then b
            else { b with first_order_time := now, has_orders := true }
  let b2 := { b1 with batch_buffer := b1.batch_buffer ++ [o] }
  if b2.batch_size_threshold ≤ b2.batch_buffer.length then flush_batch b2 now
  else b2

/-- Source `Batcher::check_timeout`: returns false when there are no orders;
otherwise flush and return true exactly when the elapsed time since
`first_order_time_` has reached the timeout. -/
def check_timeout (b : Batcher) (now : Nat) : Bool × Batcher :=
  if !b.has_orders || b.batch_buffer.isEmpty then (false, b)
  else if b.timeout ≤ now - b.first_order_time then (true, flush_batch b now)
  else (false, b)

/-- Source `Batcher::force_flush`: flush exactly when the buffer is
non-empty. -/
def force_flush (b : Batcher) (now : Nat) : Batcher :=
  if b.batch_buffer.isEmpty then b else flush_batch b now

/-- Sequential composition of `add_order` over (order, clock) pairs. -/
def addList (b : Batcher) : List (Order × Nat) → Batcher
  | [] => b
  | p :: ps => addList (add_order b p.1 p.2) ps

/-- An `add_order` below the size threshold: pure append, no flush. -/
theorem add_order_no_trigger (b : Batcher) (o : Order) (t : Nat)
    (h : b.batch_buffer.length + 1 < b.batch_size_threshold) :
    add_order b o t =
      { b with batch_buffer := b.batch_buffer ++ [o],
               has_orders := true,
               first_order_time :=
                 if b.has_orders then b.first_order_time else t } := by
  unfold add_order
  cases hb : b.has_orders <;>
    simp [hb, flush_batch] <;> omega

/-- An `add_order` reaching the size threshold: append then flush. -/
theorem add_order_trigger (b : Batcher) (o : Order) (t : Nat)
    (h : b.batch_size_threshold ≤ b.batch_buffer.length + 1) :
    add_order b o t =
      { b with batch_buffer := [], has_orders := false,
               first_order_time :=
                 if b.has_orders then b.first_order_time else t,
               sent := b.sent ++
                 [(b.batch_buffer ++ [o],
                   t - (if b.has_orders then b.first_order_time else t))] } := by
  unfold add_order
  cases hb : b.has_orders <;>
    simp [hb, flush_batch, List.isEmpty_iff] <;> omega

/-- An add on an already-started window strictly below the threshold
is a pure append. -/
theorem add_order_started_no_trigger (b : Batcher) (o : Order) (t : Nat)
    (hho : b.has_orders = true)
    (h : b.batch_buffer.length + 1 < b.batch_size_threshold) :
    add_order b o t = { b with batch_buffer := b.batch_buffer ++ [o] } := by
  rw [add_order_no_trigger b o t h, hho]
  simp [hho]

/-- An add on an already-started window reaching the threshold
appends and then flushes the whole window. -/
theorem add_order_started_trigger (b : Batcher) (o : Order) (t : Nat)
    (hho : b.has_orders = true)
    (h : b.batch_size_threshold ≤ b.batch_buffer.length + 1) :
    add_order b o t =
      { b with batch_buffer := [], has_orders := false,
               sent := b.sent ++
                 [(b.batch_buffer ++ [o], t - b.first_order_time)] } := by
  rw [add_order_trigger b o t h, hho]
  simp [hho]

/-- Adds that stay strictly below the threshold only accumulate: no
flush happens and the orders are appended in arrival order. -/
theorem addList_fills (ps : List (Order × Nat)) :
    ∀ (b : Batcher), b.has_orders = true →
      b.batch_buffer.length + ps.length < b.batch_size_threshold →
      addList b ps = { b with batch_buffer := b.batch_buffer ++ ps.map Prod.fst } := by
  induction ps with
  | nil => intro b _ _; simp [addList]
  | cons p rest ih =>
      intro b hho hlt
      show addList (add_order b p.1 p.2) rest = _
      rw [add_order_started_no_trigger b p.1 p.2 hho (by simp at hlt; omega)]
      rw [ih _ (by simpa using hho) (by simp at hlt ⊢; omega)]
      simp [hho]

/-- Adds that exactly exhaust the threshold flush once, at the last
add, with the whole accumulated window. -/
theorem addList_last (ps : List (Order × Nat)) :
    ∀ (b : Batcher), b.has_orders = true →
      1 ≤ ps.length →
      b.batch_buffer.length + ps.length = b.batch_size_threshold →
      ∃ lat, addList b ps =
        { b with batch_buffer := [], has_orders := false,
                 sent := b.sent ++ [(b.batch_buffer ++ ps.map Prod.fst, lat)] } := by
  induction ps with
  | nil => intro b _ h1 _; simp at h1
  | cons p rest ih =>
      intro b hho _ hlen
      rcases Nat.eq_zero_or_pos rest.length with hz | hpos
      · have hrest : rest = [] := List.eq_nil_of_length_eq_zero hz
        subst hrest
        refine ⟨p.2 - b.first_order_time, ?_⟩
        show addList (add_order b p.1 p.2) [] = _
        rw [add_order_started_trigger b p.1 p.2 hho (by simp at hlen; omega)]
        simp [addList]
      · show ∃ lat, addList (add_order b p.1 p.2) rest = _
        rw [add_order_started_no_trigger b p.1 p.2 hho (by simp at hlen; omega)]
        obtain ⟨lat, hl⟩ := ih { b with batch_buffer := b.batch_buffer ++ [p.1] }
          (by simpa using hho) hpos (by simp at hlen ⊢; omega)
        refine ⟨lat, ?_⟩
        rw [hl]
        simp

/-- C4 — Batcher size trigger: adding exactly `batch_size_threshold`
orders to an empty batcher invokes the send callback exactly once,
with exactly those orders in arrival order; the buffer is empty
afterwards; and every proper prefix of the adds causes no flush. -/
theorem batcher_size_trigger (b : Batcher) (ps : List (Order × Nat))
    (hbuf : b.batch_buffer = []) (hho : b.has_orders = false)
    (hpos : 1 ≤ b.batch_size_threshold)
    (hlen : ps.length = b.batch_size_threshold) :
    (∃ lat, (addList b ps).sent = b.sent ++ [(ps.map Prod.fst, lat)]) ∧
    (addList b ps).batch_buffer = [] ∧
    (addList b ps).has_orders = false ∧
    (∀ i, i < ps.length → (addList b (List.take i ps)).sent = b.sent) := by
  obtain ⟨p, rest, hps⟩ : ∃ p rest, ps = p :: rest := by
    cases ps with
    | nil => simp at hlen; omega
    | cons p rest => exact ⟨p, rest, rfl⟩
  subst hps
  rcases Nat.lt_or_ge b.batch_size_threshold 2 with hth | hth
  · have hth1 : b.batch_size_threshold = 1 := by omega
    have hrest : rest = [] := by
      have h2 := hlen
      rw [hth1] at h2
      simp at h2
      exact h2
    subst hrest
    have hb1 : add_order b p.1 p.2
        = { b with batch_buffer := [], has_orders := false,
                   first_order_time := p.2,
                   sent := b.sent ++ [([p.1], 0)] } := by
      rw [add_order_trigger b p.1 p.2 (by simp [hbuf]; omega), hho]
      simp [hbuf]
    refine ⟨⟨0, ?_⟩, ?_, ?_, ?_⟩
    · show (addList (add_order b p.1 p.2) []).sent = _
      rw [hb1]; simp [addList]
    · show (addList (add_order b p.1 p.2) []).batch_buffer = _
      rw [hb1]; rfl
    · show (addList (add_order b p.1 p.2) []).has_orders = _
      rw [hb1]; rfl
    · intro i hi
      simp at hi
      subst hi
      rfl
  · have hb1 : add_order b p.1 p.2
        = { b with batch_buffer := [p.1], has_orders := true,
                   first_order_time := p.2 } := by
      rw [add_order_no_trigger b p.1 p.2 (by simp [hbuf]; omega), hho]
      simp [hbuf]
    obtain ⟨lat, hl⟩ := addList_last rest
      { b with batch_buffer := [p.1], has_orders := true, first_order_time := p.2 }
      rfl (by simp at hlen; omega) (by simp at hlen ⊢; omega)
    refine ⟨⟨lat, ?_⟩, ?_, ?_, ?_⟩
    · show (addList (add_order b p.1 p.2) rest).sent = _
      rw [hb1, hl]; simp
    · show (addList (add_order b p.1 p.2) rest).batch_buffer = _
      rw [hb1, hl]
    · show (addList (add_order b p.1 p.2) rest).has_orders = _
      rw [hb1, hl]
    · intro i hi
      cases i with
      | zero => rfl
      | succ j =>
          show (addList (add_order b p.1 p.2) (List.take j rest)).sent = _
          rw [hb1, addList_fills (List.take j rest) _ rfl (by simp at hi hlen ⊢; omega)]

/-- A concrete batcher with threshold 2, used in concrete runs. -/
def sampleBatcher : Batcher :=
  { batch_buffer := [], batch_size_threshold := 2, timeout := 1000,
    first_order_time := 0, has_orders := false, sent := [] }

/-- C4 witness: a concrete two-order window on a threshold-2 batcher. -/
theorem batcher_size_trigger_witness :
    sampleBatcher.batch_buffer = [] ∧ sampleBatcher.has_orders = false ∧
    1 ≤ sampleBatcher.batch_size_threshold ∧
    ([(sampleOrder 1, 5), (sampleOrder 2, 9)] : List (Order × Nat)).length
      = sampleBatcher.batch_size_threshold ∧
    ((∃ lat, (addList sampleBatcher [(sampleOrder 1, 5), (sampleOrder 2, 9)]).sent
         = sampleBatcher.sent ++
             [(([(sampleOrder 1, 5), (sampleOrder 2, 9)] :
                   List (Order × Nat)).map Prod.fst, lat)]) ∧
     (addList sampleBatcher [(sampleOrder 1, 5), (sampleOrder 2, 9)]).batch_buffer = [] ∧
     (addList sampleBatcher [(sampleOrder 1, 5), (sampleOrder 2, 9)]).has_orders = false ∧
     (∀ i, i < ([(sampleOrder 1, 5), (sampleOrder 2, 9)] : List (Order × Nat)).length →
        (addList sampleBatcher
            (List.take i [(sampleOrder 1, 5), (sampleOrder 2, 9)])).sent
          = sampleBatcher.sent)) :=
  ⟨rfl, rfl, by decide, by decide,
   batcher_size_trigger sampleBatcher [(sampleOrder 1, 5), (sampleOrder 2, 9)]
     rfl rfl (by decide) (by decide)⟩

/-- A concrete started batcher: one order in the buffer, window opened
at time 0, timeout 1000 µs. -/
def sampleStarted : Batcher :=
  { batch_buffer := [sampleOrder 1], batch_size_threshold := 100,
    timeout := 1000, first_order_time := 0, has_orders := true, sent := [] }

/-- C5 — Batcher age trigger: `check_timeout` returns true exactly
when a flush occurs during the call (the callback log grows by one
entry, carrying the whole buffer), a flush occurs exactly when the
buffer is non-empty and the elapsed time since `first_order_time` has
reached the timeout, a false return leaves the batcher untouched, and
an immediate second `check_timeout` after a flush returns false.
(The hypothesis ties the `has_orders_` flag to buffer non-emptiness,
which holds in every reachable batcher state.) -/
theorem batcher_age_trigger (b : Batcher) (now now2 : Nat)
    (hwf : b.has_orders = !b.batch_buffer.isEmpty) :
    ((check_timeout b now).1 = true ↔
        (b.batch_buffer ≠ [] ∧ b.timeout ≤ now - b.first_order_time)) ∧
    ((check_timeout b now).1 = true ↔
        (check_timeout b now).2.sent
          = b.sent ++ [(b.batch_buffer, now - b.first_order_time)]) ∧
    ((check_timeout b now).1 = false → (check_timeout b now).2 = b) ∧
    ((check_timeout b now).1 = true →
        (check_timeout (check_timeout b now).2 now2).1 = false) := by
  cases hemp : b.batch_buffer.isEmpty with
  | true =>
      have hho : b.has_orders = false := by rw [hwf, hemp]; rfl
      have hc : check_timeout b now = (false, b) := by
        unfold check_timeout
        rw [hho, hemp]
        rfl
      rw [hc]
      refine ⟨?_, ?_, fun _ => rfl, by simp⟩
      · simp [List.isEmpty_iff.mp hemp]
      · constructor
        · intro h; simp at h
        · intro h
          exfalso
          have h2 := congrArg List.length h
          simp at h2
  | false =>
      have hho : b.has_orders = true := by rw [hwf, hemp]; rfl
      have hne : ¬b.batch_buffer = [] := by
        intro h
        rw [h] at hemp
        simp at hemp
      by_cases htime : b.timeout ≤ now - b.first_order_time
      · have hf : flush_batch b now
            = { b with sent := b.sent ++ [(b.batch_buffer, now - b.first_order_time)],
                       batch_buffer := [], has_orders := false } := by
          unfold flush_batch
          rw [hemp]
          rfl
        have hc : check_timeout b now
            = (true, { b with
                sent := b.sent ++ [(b.batch_buffer, now - b.first_order_time)],
                batch_buffer := [], has_orders := false }) := by
          unfold check_timeout
          rw [hho, hemp, ← hf]
          simp [htime]
        rw [hc]
        refine ⟨by simp [hne, htime], by simp, by simp, fun _ => ?_⟩
        unfold check_timeout
        simp
      · have hc : check_timeout b now = (false, b) := by
          unfold check_timeout
          rw [hho, hemp]
          simp [htime]
        rw [hc]
        refine ⟨by simp [htime], ?_, fun _ => rfl, by simp⟩
        constructor
        · intro h; simp at h
        · intro h
          exfalso
          have h2 := congrArg List.length h
          simp at h2

/-- C5 witness: `sampleStarted` checked at time 1500 flushes; the
flushed state re-checked at time 1501 does not. -/
theorem batcher_age_trigger_witness :
    sampleStarted.has_orders = !sampleStarted.batch_buffer.isEmpty ∧
    (((check_timeout sampleStarted 1500).1 = true ↔
        (sampleStarted.batch_buffer ≠ [] ∧
         sampleStarted.timeout ≤ 1500 - sampleStarted.first_order_time)) ∧
     ((check_timeout sampleStarted 1500).1 = true ↔
        (check_timeout sampleStarted 1500).2.sent
          = sampleStarted.sent ++
              [(sampleStarted.batch_buffer,
                1500 - sampleStarted.first_order_time)]) ∧
     ((check_timeout sampleStarted 1500).1 = false →
        (check_timeout sampleStarted 1500).2 = sampleStarted) ∧
     ((check_timeout sampleStarted 1500).1 = true →
        (check_timeout (check_timeout sampleStarted 1500).2 1501).1 = false)) :=
  ⟨by decide, batcher_age_trigger sampleStarted 1500 1501 (by decide)⟩

/-- C9 — Batcher force_flush: the callback fires exactly when the
buffer is non-empty (recording the buffer and its age), the buffer is
empty afterwards, and the operation is idempotent: a second
`force_flush` on the flushed state is a no-op, returning that state
unchanged. -/
theorem batcher_force_flush (b : Batcher) (t1 t2 : Nat) :
    (force_flush b t1).sent
      = b.sent ++ (if b.batch_buffer.isEmpty then []
                   else [(b.batch_buffer, t1 - b.first_order_time)]) ∧
    (force_flush b t1).batch_buffer = [] ∧
    force_flush (force_flush b t1) t2 = force_flush b t1 := by
  cases hemp : b.batch_buffer.isEmpty with
  | true =>
      have hb : force_flush b t1 = b := by
        unfold force_flush
        rw [hemp]
        rfl
      rw [hb]
      refine ⟨by simp [hemp], List.isEmpty_iff.mp hemp, ?_⟩
      unfold force_flush
      rw [hemp]
      rfl
  | false =>
      have hb : force_flush b t1
          = { b with sent := b.sent ++ [(b.batch_buffer, t1 - b.first_order_time)],
                     batch_buffer := [], has_orders := false } := by
        unfold force_flush flush_batch
        rw [hemp]
        rfl
      rw [hb]
      refine ⟨by simp [hemp], rfl, ?_⟩
      unfold force_flush
      rfl

/-! ## Reliable transport (`tcp_sim.cpp`) -/

/-- The retry loop of `TCPSimulator::send_reliable`.  `drop i` is the
outcome of the random draw at attempt `i` (`true` = packet dropped);
`fuel` is the number of attempts still allowed, so the attempt index
is `max_retries + 1 - fuel`.  The result is (delivered, increment of
`dropped_packets_`, increment of `retransmissions_`): each dropped
attempt bumps `dropped_packets_`, and bumps `retransmissions_` only
when a further attempt remains (`retries <= max_retries_` after the
increment, i.e. `fuel > 1`). -/
def reliableGo (drop : Nat → Bool) (max_retries : Nat) : Nat → Bool × Nat × Nat
  | 0 => (false, 0, 0)
  | fuel + 1 =>
      if drop (max_retries - fuel) then
        let rest := reliableGo drop max_retries fuel
        (rest.1, rest.2.1 + 1, rest.2.2 + (if fuel = 0 then 0 else 1))
      else (true, 0, 0)

/-- Source `TCPSimulator::send_reliable`: up to `max_retries + 1` delivery
attempts (the initial attempt plus `max_retries` retries). -/
def send_reliable (max_retries : Nat) (drop : Nat → Bool) : Bool × Nat × Nat :=
  reliableGo drop max_retries (max_retries + 1)

theorem reliableGo_bounds (drop : Nat → Bool) (R : Nat) :
    ∀ fuel, (reliableGo drop R fuel).2.1 ≤ fuel ∧
      (reliableGo drop R fuel).2.2 ≤ fuel - 1 := by
  intro fuel
  induction fuel with
  | zero => exact ⟨Nat.le_refl 0, Nat.le_refl 0⟩
  | succ n ih =>
      unfold reliableGo
      cases hd : drop (R - n) with
      | true =>
          simp only [hd, if_true]
          rcases Nat.eq_zero_or_pos n with hz | hpos
          · subst hz
            simp [reliableGo]
          · constructor
            · show (reliableGo drop R n).2.1 + 1 ≤ n + 1
              omega
            · show (reliableGo drop R n).2.2 + (if n = 0 then 0 else 1) ≤ n + 1 - 1
              rw [if_neg (by omega)]
              omega
      | false => simp [hd]

/-- C6 — Reliable retry bound: for any `max_retries = R` and any
sequence of drop outcomes, one `send_reliable` increases
`dropped_packets` by at most `R + 1` and `retransmissions` by at most
`R`; and with every packet dropped (`drop_rate = 1.0`) and `R = 2`,
one send drops exactly 3 packets, retransmits exactly 2 times and
returns false. -/
theorem reliable_retry_bound (R : Nat) (drop : Nat → Bool) :
    (send_reliable R drop).2.1 ≤ R + 1 ∧
    (send_reliable R drop).2.2 ≤ R ∧
    send_reliable 2 (fun _ => true) = (false, 3, 2) := by
  obtain ⟨h1, h2⟩ := reliableGo_bounds drop R (R + 1)
  exact ⟨h1, by simpa using h2, by decide⟩

/-! ## Order validity (`order.hpp`) -/

/-- C7 counterexample: the price `1/1000` is strictly positive, yet
the constructed order fails `is_valid()` because
`price_cents = floor(0.1 + 0.5) = 0`. -/
theorem order_validity_counterexample :
    (0 : ℚ) < 1 / 1000 ∧
    (mkOrder 1 ['A'] OrderType.BUY (1 / 1000) 5 0).is_valid = false := by
  refine ⟨by norm_num, ?_⟩
  have h0 : ⌊(1 : ℚ) / 1000 * 100 + 1 / 2⌋ = 0 := by
    rw [Int.floor_eq_iff]
    norm_num
  have hc : price_to_cents (1 / 1000) = 0 := by
    unfold price_to_cents
    rw [h0]
    rfl
  have hv : (mkOrder 1 ['A'] OrderType.BUY (1 / 1000) 5 0).price_cents = 0 := hc
  unfold Order.is_valid
  rw [hv]
  simp

/-- C7 (amended) — Order validity for representable prices: for any
price `p ≥ 0.005` (so that the rounded cent value is at least 1),
quantity > 0, id ≠ 0 and a symbol of at most 15 characters whose first
character is present and non-NUL, the constructed order satisfies
`is_valid()`, and the stored cent price round-trips to within 0.005 of
`p`. -/
theorem order_validity (id : Nat) (sym : List Char) (t : OrderType)
    (price : ℚ) (qty ts : Nat)
    (hid : id ≠ 0) (hq : 0 < qty)
    (hsym : sym ≠ []) (hsym0 : sym.headD NUL ≠ NUL) (hlen : sym.length ≤ 15)
    (hp : 1 / 200 ≤ price) :
    (mkOrder id sym t price qty ts).is_valid = true ∧
    |(mkOrder id sym t price qty ts).get_price - price| ≤ 1 / 200 := by
  have hfl : (1 : ℤ) ≤ ⌊price * 100 + 1 / 2⌋ := by
    apply Int.le_floor.mpr
    push_cast
    linarith
  have hge0 : (0 : ℤ) ≤ ⌊price * 100 + 1 / 2⌋ := by omega
  have hcents : 1 ≤ price_to_cents price := by
    unfold price_to_cents
    omega
  have hhead : (sym.take 15).headD NUL = sym.headD NUL := by
    cases sym with
    | nil => exact absurd rfl hsym
    | cons a l => rfl
  constructor
  · have hsym0n : ¬sym.head?.getD NUL = NUL := by simpa using hsym0
    simp only [Order.is_valid, mkOrder, hhead]
    simp [hid, hq, hsym0n]
    omega
  · have hcast : ((price_to_cents price : ℚ)) = ((⌊price * 100 + 1 / 2⌋ : ℤ) : ℚ) := by
      unfold price_to_cents
      exact_mod_cast congrArg (fun z : ℤ => (z : ℚ)) (Int.toNat_of_nonneg hge0)
    have hub : ((⌊price * 100 + 1 / 2⌋ : ℤ) : ℚ) ≤ price * 100 + 1 / 2 :=
      Int.floor_le _
    have hlb : price * 100 + 1 / 2 - 1 < ((⌊price * 100 + 1 / 2⌋ : ℤ) : ℚ) :=
      Int.sub_one_lt_floor _
    show |(price_to_cents price : ℚ) / 100 - price| ≤ 1 / 200
    rw [abs_le, hcast]
    constructor <;> linarith

/-- C7 witness: a concrete order at price 12.30. -/
theorem order_validity_witness :
    (7 : Nat) ≠ 0 ∧ (0 : Nat) < 10 ∧
    (['X', 'Y', 'Z'] : List Char) ≠ [] ∧
    (['X', 'Y', 'Z'] : List Char).headD NUL ≠ NUL ∧
    (['X', 'Y', 'Z'] : List Char).length ≤ 15 ∧
    (1 : ℚ) / 200 ≤ 123 / 10 ∧
    ((mkOrder 7 ['X', 'Y', 'Z'] OrderType.SELL (123 / 10) 10 99).is_valid = true ∧
     |(mkOrder 7 ['X', 'Y', 'Z'] OrderType.SELL (123 / 10) 10 99).get_price
        - 123 / 10| ≤ 1 / 200) :=
  ⟨by decide, by decide, by decide, by decide, by decide, by norm_num,
   order_validity 7 ['X', 'Y', 'Z'] OrderType.SELL (123 / 10) 10 99
     (by decide) (by decide) (by decide) (by decide) (by decide) (by norm_num)⟩

/-! ## Instant transport (`shm_sim.cpp`) -/

/-- State of `SHMSimulator`: the message counter, the delay statistics
and the noise configuration. -/
structure SHMSimulator where
  messages_sent : Nat
  total_delay_ns : Nat
  min_delay_ns : Nat
  max_delay_ns : Nat
  enable_noise : Bool
  noise_range_ns : Nat
deriving DecidableEq

/-- Source `SHMSimulator::send_instant`: ignores the orders and the batch
latency, bumps `messages_sent_`, folds the measured delay (passed in
as `delay_ns`) into the total/min/max statistics, and returns true
unconditionally. -/
def send_instant (s : SHMSimulator) (_orders : List Order)
    (_batch_latency_us : Nat) (delay_ns : Nat) : Bool × SHMSimulator :=
  (true, { s with messages_sent := s.messages_sent + 1,
                  total_delay_ns := s.total_delay_ns + delay_ns,
                  min_delay_ns := min s.min_delay_ns delay_ns,
                  max_delay_ns := max s.max_delay_ns delay_ns })

/-- Source `shm_send_orders`: returns false (with an error log) when the
global simulator has not been initialised; otherwise delegates to
`send_instant`. -/
def shm_send_orders (g : Option SHMSimulator) (orders : List Order)
    (batch_latency_us : Nat) (delay_ns : Nat) : Bool × Option SHMSimulator :=
  match g with
  | none => (false, none)
  | some s =>
      let r := send_instant s orders batch_latency_us delay_ns
      (r.1, some r.2)

/-- C8 counterexample: a call to the SHM send entry point with the
simulator uninitialised returns false, so not every call to the
Instant transport's send operation returns true. -/
theorem shm_uninitialized_counterexample :
    (shm_send_orders none [sampleOrder 1] 0 0).1 = false := rfl

/-- C8 (amended) — `SHMSimulator::send_instant` itself returns true
unconditionally, and `shm_send_orders` returns true for every call
with an initialised simulator; it returns false exactly in the
uninitialised case. -/
theorem shm_send_totality (s g : SHMSimulator) (os os2 os3 : List Order)
    (l1 l2 l3 d1 d2 d3 : Nat) :
    (send_instant s os l1 d1).1 = true ∧
    (shm_send_orders (some g) os2 l2 d2).1 = true ∧
    (shm_send_orders none os3 l3 d3).1 = false :=
  ⟨rfl, rfl, rfl⟩

end LowLatency
